import Mathlib

/-!
Verification of the `webcrawl-md-pdf` utilities.

This file gives a shallow embedding, in Lean 4, of the logic of the two
scripts `crawl_docs_fast.py` and `markdown_to_pdf.py`:

* the batch loop of `crawl_parallel` (`for i in range(0, len(urls), max_concurrent)`),
* the result-triage loop of `crawl_parallel` (exception / `result.success` handling),
* the running-peak update of `log_memory`,
* the content sanitizer `remove_malformed_links` (four sequential `re.sub` passes),
* the filename derivation `create_safe_filename`,
* the sitemap loader `get_urls_from_sitemap`,
* the output-path logic of `markdown_to_pdf` and the `--single` branch of its CLI.

Text is modelled as `List Char`.  Recursions that skip a variable number of
elements (string replacement, chunking, the cross-line link-removal pass) are
written with an explicit fuel argument set to the input length, so that every
definition is a plain structural recursion that the kernel can evaluate; a
fuel-adequacy lemma recovers the natural unfolding equations.
-/

/-! ### Batch chunking (`crawl_parallel`, lines 75–76)

`for i in range(0, len(urls), max_concurrent): batch = urls[i : i + max_concurrent]`.
Each batch is `take n` of the remaining list and the loop continues on `drop n`.
-/

def chunkListAux (n : Nat) : Nat → List α → List (List α)
  | _, [] => []
  | 0, l => [l]
  | fuel + 1, x :: rest => (x :: rest.take (n - 1)) :: chunkListAux n fuel (rest.drop (n - 1))

/-- The batches `urls[0:n], urls[n:2n], …` produced by the loop header of
`crawl_parallel`. -/
def chunkList (n : Nat) (l : List α) : List (List α) :=
  chunkListAux n l.length l

theorem chunkListAux_congr (n : Nat) :
    ∀ (f g : Nat) (l : List α), l.length ≤ f → l.length ≤ g →
      chunkListAux n f l = chunkListAux n g l := by
  intro f
  induction f with
  | zero =>
    intro g l hf _
    have hl : l = [] := List.eq_nil_of_length_eq_zero (Nat.le_zero.mp hf)
    subst hl
    cases g <;> rfl
  | succ f ih =>
    intro g l hf hg
    cases l with
    | nil => cases g <;> rfl
    | cons x rest =>
      cases g with
      | zero => exact absurd hg (by simp)
      | succ g =>
        simp only [chunkListAux]
        have hr : rest.length ≤ f := by
          simp only [List.length_cons] at hf; omega
        have hg' : rest.length ≤ g := by
          simp only [List.length_cons] at hg; omega
        have hd : (rest.drop (n - 1)).length ≤ rest.length := by
          simp [List.length_drop]
        rw [ih g (rest.drop (n - 1)) (le_trans hd hr) (le_trans hd hg')]

theorem chunkList_nil (n : Nat) : chunkList n ([] : List α) = [] := rfl

theorem chunkList_cons (n : Nat) (x : α) (rest : List α) :
    chunkList n (x :: rest) =
      (x :: rest.take (n - 1)) :: chunkList n (rest.drop (n - 1)) := by
  show chunkListAux n (rest.length + 1) (x :: rest) = _
  simp only [chunkListAux]
  rw [chunkListAux_congr n rest.length (rest.drop (n - 1)).length (rest.drop (n - 1))
    (by simp [List.length_drop]) le_rfl]
  rfl

theorem chunkList_eq_take_drop (n : Nat) (l : List α) (hn : 0 < n) (hl : l ≠ []) :
    chunkList n l = l.take n :: chunkList n (l.drop n) := by
  cases l with
  | nil => exact absurd rfl hl
  | cons x rest =>
    rw [chunkList_cons]
    obtain ⟨m, hm⟩ : ∃ m, n = m + 1 := ⟨n - 1, (Nat.succ_pred_eq_of_pos hn).symm⟩
    subst hm
    simp [List.take_succ_cons, List.drop_succ_cons]

theorem chunkList_flatten (n : Nat) (hn : 0 < n) (l : List α) :
    (chunkList n l).flatten = l := by
  have H : ∀ (len : Nat) (l : List α), l.length ≤ len → (chunkList n l).flatten = l := by
    intro len
    induction len with
    | zero =>
      intro l hl
      have : l = [] := List.eq_nil_of_length_eq_zero (Nat.le_zero.mp hl)
      subst this
      simp [chunkList_nil]
    | succ len ih =>
      intro l hl
      cases l with
      | nil => simp [chunkList_nil]
      | cons x rest =>
        rw [chunkList_eq_take_drop n _ hn (by simp)]
        have hdrop : ((x :: rest).drop n).length ≤ len := by
          simp only [List.length_drop, List.length_cons]
          simp only [List.length_cons] at hl
          omega
        rw [List.flatten_cons, ih _ hdrop, List.take_append_drop]
  exact H l.length l le_rfl

theorem chunkList_mem_length (n : Nat) (hn : 0 < n) (l : List α) :
    ∀ b ∈ chunkList n l, b.length ≤ n := by
  have H : ∀ (len : Nat) (l : List α), l.length ≤ len →
      ∀ b ∈ chunkList n l, b.length ≤ n := by
    intro len
    induction len with
    | zero =>
      intro l hl b hb
      have : l = [] := List.eq_nil_of_length_eq_zero (Nat.le_zero.mp hl)
      subst this
      simp [chunkList_nil] at hb
    | succ len ih =>
      intro l hl b hb
      cases l with
      | nil => simp [chunkList_nil] at hb
      | cons x rest =>
        rw [chunkList_eq_take_drop n _ hn (by simp)] at hb
        rcases List.mem_cons.mp hb with h | h
        · subst h
          simpa using List.length_take_le n (x :: rest)
        · have hdrop : ((x :: rest).drop n).length ≤ len := by
            simp only [List.length_drop, List.length_cons]
            simp only [List.length_cons] at hl
            omega
          exact ih _ hdrop b h
  exact H l.length l le_rfl

theorem chunkList_count (n : Nat) (hn : 0 < n) (l : List α) :
    (chunkList n l).length = (l.length + n - 1) / n := by
  have H : ∀ (len : Nat) (l : List α), l.length ≤ len →
      (chunkList n l).length = (l.length + n - 1) / n := by
    intro len
    induction len with
    | zero =>
      intro l hl
      have : l = [] := List.eq_nil_of_length_eq_zero (Nat.le_zero.mp hl)
      subst this
      simp only [chunkList_nil, List.length_nil]
      have := Nat.div_eq_of_lt (show 0 + n - 1 < n by omega)
      omega
    | succ len ih =>
      intro l hl
      cases l with
      | nil =>
        simp only [chunkList_nil, List.length_nil]
        have := Nat.div_eq_of_lt (show 0 + n - 1 < n by omega)
        omega
      | cons x rest =>
        rw [chunkList_eq_take_drop n _ hn (by simp)]
        have hdrop : ((x :: rest).drop n).length ≤ len := by
          simp only [List.length_drop, List.length_cons]
          simp only [List.length_cons] at hl
          omega
        rw [List.length_cons, ih _ hdrop]
        simp only [List.length_drop, List.length_cons]
        rcases Nat.lt_or_ge rest.length n with h | h
        · have h1 : rest.length + 1 - n = 0 := by omega
          rw [h1]
          have h2 : (0 + n - 1) / n = 0 := Nat.div_eq_of_lt (by omega)
          have h3 : (rest.length + 1 + n - 1) / n = 1 :=
            Nat.div_eq_of_lt_le (by omega) (by omega)
          omega
        · have h1 : rest.length + 1 - n + n - 1 = rest.length + 1 - 1 := by omega
          have h2 : rest.length + 1 + n - 1 = (rest.length + 1 - n + n - 1) + n := by omega
          rw [h2, h1, Nat.add_div_right _ hn]
  exact H l.length l le_rfl

/-- C1: for every URL list and every batch size `N > 0`, the loop of
`crawl_parallel` produces exactly `⌈L/N⌉` batches, each of size at most `N`,
and their concatenation is the input list in its original order. -/
theorem crawl_parallel_batches {α : Type} (urls : List α) (n : Nat) (h : 0 < n) :
    (chunkList n urls).length = (urls.length + n - 1) / n ∧
      (∀ b ∈ chunkList n urls, b.length ≤ n) ∧
      (chunkList n urls).flatten = urls :=
  ⟨chunkList_count n h urls, chunkList_mem_length n h urls,
    chunkList_flatten n h urls⟩

/-- Witness for C1 at the concrete input `[0, 1, 2]`, batch size `2`:
two batches `[0, 1]` and `[2]`. -/
theorem crawl_parallel_batches_witness :
    (0 < 2) ∧
      ((chunkList 2 [0, 1, 2]).length = (3 + 2 - 1) / 2 ∧
        (∀ b ∈ chunkList 2 [0, 1, 2], b.length ≤ 2) ∧
        (chunkList 2 [0, 1, 2]).flatten = [0, 1, 2]) :=
  ⟨by decide, crawl_parallel_batches [0, 1, 2] 2 (by decide)⟩

/-! ### Content sanitizer (`remove_malformed_links`, lines 151–177)

Four sequential `re.sub` passes over the whole text:

1. `.*<https:/[^>]*>.*\n` — since `[^>]` matches newlines, a match starts at
   the beginning of the line holding a `<https:/` token and extends through
   the line holding the first `>` after it (all lines involved must be
   newline-terminated);
2. `.*\S+@\S+\.\S+.*\n` — drops a newline-terminated line holding an email;
3. `.*\d{3}[\.\-]?\d{3}[\.\-]?\d{4}.*\n` — drops a newline-terminated line
   holding a phone number;
4. `^\s*\n` — without `re.MULTILINE` the anchor matches only at position 0,
   so exactly the leading whitespace-only newline-terminated lines go.

A text is represented by its newline-terminated line bodies plus the final
unterminated segment.
-/

/-- Python `\s` on the ASCII range. -/
def pySpace (c : Char) : Bool :=
  c = ' ' || c = '\t' || c = '\n' || c = '\r' || c = '\x0b' || c = '\x0c'

/-- A line that `^\s*\n` can absorb: empty or whitespace-only. -/
def isBlankLine (l : List Char) : Bool := l.all pySpace

/-- Prepend a character to the first complete line of a decomposition, or to
the unterminated segment when there is no complete line. -/
def consHead (c : Char) : List (List Char) × List Char → List (List Char) × List Char
  | ([], t) => ([], c :: t)
  | (l :: ls, t) => ((c :: l) :: ls, t)

/-- Split a text into its newline-terminated line bodies (first component,
bodies do not include the `\n`) and the final unterminated segment. -/
def splitLines : List Char → List (List Char) × List Char
  | [] => ([], [])
  | c :: rest =>
    if c = '\n' then ([] :: (splitLines rest).1, (splitLines rest).2)
    else consHead c (splitLines rest)

/-- Rebuild a text from line bodies and the final unterminated segment. -/
def joinLines (ls : List (List Char)) (t : List Char) : List Char :=
  (ls.map (fun l => l ++ ['\n'])).flatten ++ t

/-- `\S+@\S+\.\S+` occurs in the line: an `@` with a non-space directly
before it, a later `.` with only non-spaces in between (at least one), and a
non-space directly after the `.`. -/
def lineHasEmail (l : List Char) : Bool :=
  (List.range l.length).any fun q =>
    decide (0 < q) && (l.getD q ' ' == '@') && !pySpace (l.getD (q - 1) ' ') &&
    ((List.range l.length).any fun r =>
      decide (q + 2 ≤ r) && (l.getD r ' ' == '.') &&
      ((List.range l.length).all fun t =>
        !(decide (q < t) && decide (t < r)) || !pySpace (l.getD t ' ')) &&
      decide (r + 1 < l.length) && !pySpace (l.getD (r + 1) ' '))

/-- `cnt` consecutive ASCII digits starting at index `i`. -/
def digitsAt (l : List Char) (i cnt : Nat) : Bool :=
  (List.range cnt).all fun k => decide (i + k < l.length) && (l.getD (i + k) ' ').isDigit

/-- A phone-number separator `[\.\-]` at index `i`. -/
def sepAt (l : List Char) (i : Nat) : Bool :=
  decide (i < l.length) && (l.getD i ' ' == '.' || l.getD i ' ' == '-')

/-- `\d{3}[\.\-]?\d{3}[\.\-]?\d{4}` occurs in the line (each optional
separator present or absent). -/
def lineHasPhone (l : List Char) : Bool :=
  (List.range l.length).any fun i =>
    digitsAt l i 3 &&
      ((sepAt l (i + 3) && digitsAt l (i + 4) 3 &&
          (sepAt l (i + 7) && digitsAt l (i + 8) 4 || digitsAt l (i + 7) 4)) ||
        (digitsAt l (i + 3) 3 &&
          (sepAt l (i + 6) && digitsAt l (i + 7) 4 || digitsAt l (i + 6) 4)))

/-- The token `<https:/` starts at index `i` of the line. -/
def linkTokenAt (l : List Char) (i : Nat) : Bool :=
  "<https:/".toList.isPrefixOf (l.drop i)

/-- All start positions of `<https:/` in the line. -/
def tokenPositions (l : List Char) : List Nat :=
  (List.range l.length).filter (linkTokenAt l)

/-- Some `>` occurs in the line at index `≥ i`. -/
def hasGtAt (l : List Char) (i : Nat) : Bool := (l.drop i).contains '>'

/-- Index of the first following line that holds a `>`. -/
def findGtLine : List (List Char) → Option Nat
  | [] => none
  | r :: rs => if r.contains '>' then some 0 else (findGtLine rs).map (· + 1)

/-- Backtracking over `<https:/` tokens, rightmost first (the greedy leading
`.*`): a token succeeds if the first `>` at or after the token's end is still
in this line (match ends here, drop this line only, span `0`), or else lies
in a later newline-terminated line `j` (match extends through it, span
`j + 1`). -/
def tryTokens (l : List Char) (rest : List (List Char)) : List Nat → Option Nat
  | [] => none
  | i :: is =>
    if hasGtAt l (i + 8) then some 0
    else
      match findGtLine rest with
      | some j => some (j + 1)
      | none => tryTokens l rest is

/-- Whether pass 1 starts a match at this line, and how many following lines
the match also consumes. -/
def lineSpan (l : List Char) (rest : List (List Char)) : Option Nat :=
  tryTokens l rest (tokenPositions l).reverse

def rule1Fuel : Nat → List (List Char) → List (List Char)
  | _, [] => []
  | 0, ls => ls
  | fuel + 1, l :: rest =>
    match lineSpan l rest with
    | none => l :: rule1Fuel fuel rest
    | some k => rule1Fuel fuel (rest.drop k)

/-- Pass 1 (`re.sub(r'.*<https:/[^>]*>.*\n', '', content)`) on the list of
newline-terminated line bodies. -/
def rule1Lines (ls : List (List Char)) : List (List Char) := rule1Fuel ls.length ls

/-- The sanitizer `remove_malformed_links`: the four `re.sub` passes in
source order.  The final unterminated segment is untouched: every pattern
requires a terminating `\n`. -/
def remove_malformed_links (content : List Char) : List Char :=
  let p := splitLines content
  let ls1 := rule1Lines p.1
  let ls2 := ls1.filter fun l => !lineHasEmail l
  let ls3 := ls2.filter fun l => !lineHasPhone l
  let ls4 := ls3.dropWhile isBlankLine
  joinLines ls4 p.2

/-! ### Structural lemmas about `splitLines` and `joinLines` -/

theorem splitLines_no_newline (s : List Char) :
    (∀ l ∈ (splitLines s).1, '\n' ∉ l) ∧ '\n' ∉ (splitLines s).2 := by
  induction s with
  | nil => simp [splitLines]
  | cons c rest ih =>
    by_cases hc : c = '\n'
    · subst hc
      simp only [splitLines, if_pos rfl]
      refine ⟨?_, ih.2⟩
      intro l hl
      rcases List.mem_cons.mp hl with h | h
      · subst h; simp
      · exact ih.1 l h
    · simp only [splitLines, if_neg hc]
      rcases hp : splitLines rest with ⟨ls, t⟩
      rw [hp] at ih
      simp only at ih
      cases ls with
      | nil =>
        simp only [consHead]
        refine ⟨by simp, ?_⟩
        intro hmem
        rcases List.mem_cons.mp hmem with h | h
        · exact hc h.symm
        · exact ih.2 h
      | cons l ls =>
        simp only [consHead]
        refine ⟨?_, ih.2⟩
        intro l' hl'
        rcases List.mem_cons.mp hl' with h | h
        · subst h
          intro hmem
          rcases List.mem_cons.mp hmem with h | h
          · exact hc h.symm
          · exact ih.1 l (List.mem_cons_self _ _) h
        · exact ih.1 l' (List.mem_cons_of_mem _ h)

theorem splitLines_of_no_newline (t : List Char) (ht : '\n' ∉ t) :
    splitLines t = ([], t) := by
  induction t with
  | nil => rfl
  | cons c rest ih =>
    have hc : c ≠ '\n' := fun h => ht (h ▸ List.mem_cons_self _ _)
    have hrest : '\n' ∉ rest := fun h => ht (List.mem_cons_of_mem _ h)
    simp only [splitLines, if_neg hc, ih hrest, consHead]

theorem splitLines_append_newline (l : List Char) (hl : '\n' ∉ l) (s : List Char) :
    splitLines (l ++ '\n' :: s) = (l :: (splitLines s).1, (splitLines s).2) := by
  induction l with
  | nil => simp [splitLines]
  | cons c rest ih =>
    have hc : c ≠ '\n' := fun h => hl (h ▸ List.mem_cons_self _ _)
    have hrest : '\n' ∉ rest := fun h => hl (List.mem_cons_of_mem _ h)
    show splitLines (c :: (rest ++ '\n' :: s)) = _
    simp only [splitLines, if_neg hc, ih hrest, consHead]

theorem splitLines_joinLines (ls : List (List Char)) (t : List Char)
    (hls : ∀ l ∈ ls, '\n' ∉ l) (ht : '\n' ∉ t) :
    splitLines (joinLines ls t) = (ls, t) := by
  induction ls with
  | nil => simpa [joinLines] using splitLines_of_no_newline t ht
  | cons l ls ih =>
    have h1 : '\n' ∉ l := hls l (List.mem_cons_self _ _)
    have h2 : ∀ l' ∈ ls, '\n' ∉ l' := fun l' h => hls l' (List.mem_cons_of_mem _ h)
    have : joinLines (l :: ls) t = l ++ '\n' :: joinLines ls t := by
      simp [joinLines]
    rw [this, splitLines_append_newline l h1, ih h2]

/-! ### Structural lemmas about pass 1 (`rule1Lines`) -/

theorem rule1Fuel_congr :
    ∀ (f g : Nat) (ls : List (List Char)), ls.length ≤ f → ls.length ≤ g →
      rule1Fuel f ls = rule1Fuel g ls := by
  intro f
  induction f with
  | zero =>
    intro g ls hf _
    have : ls = [] := List.eq_nil_of_length_eq_zero (Nat.le_zero.mp hf)
    subst this
    cases g <;> rfl
  | succ f ih =>
    intro g ls hf hg
    cases ls with
    | nil => cases g <;> rfl
    | cons l rest =>
      cases g with
      | zero => exact absurd hg (by simp)
      | succ g =>
        have hr : rest.length ≤ f := by simp only [List.length_cons] at hf; omega
        have hg' : rest.length ≤ g := by simp only [List.length_cons] at hg; omega
        cases hspan : lineSpan l rest with
        | none =>
          simp only [rule1Fuel, hspan]
          rw [ih g rest hr hg']
        | some k =>
          simp only [rule1Fuel, hspan]
          have hd : (rest.drop k).length ≤ rest.length := by simp [List.length_drop]
          rw [ih g (rest.drop k) (le_trans hd hr) (le_trans hd hg')]

theorem rule1Lines_nil : rule1Lines [] = [] := rfl

theorem rule1Lines_cons_none (l : List Char) (rest : List (List Char))
    (h : lineSpan l rest = none) :
    rule1Lines (l :: rest) = l :: rule1Lines rest := by
  show rule1Fuel (rest.length + 1) (l :: rest) = _
  simp only [rule1Fuel, h]
  rfl

theorem rule1Lines_cons_some (l : List Char) (rest : List (List Char)) (k : Nat)
    (h : lineSpan l rest = some k) :
    rule1Lines (l :: rest) = rule1Lines (rest.drop k) := by
  show rule1Fuel (rest.length + 1) (l :: rest) = _
  simp only [rule1Fuel, h]
  exact rule1Fuel_congr rest.length (rest.drop k).length (rest.drop k)
    (by simp [List.length_drop]) le_rfl

theorem rule1Lines_sublist (ls : List (List Char)) : List.Sublist (rule1Lines ls) ls := by
  have H : ∀ (len : Nat) (ls : List (List Char)), ls.length ≤ len →
      List.Sublist (rule1Lines ls) ls := by
    intro len
    induction len with
    | zero =>
      intro ls hl
      have : ls = [] := List.eq_nil_of_length_eq_zero (Nat.le_zero.mp hl)
      subst this
      simp [rule1Lines_nil]
    | succ len ih =>
      intro ls hl
      cases ls with
      | nil => simp [rule1Lines_nil]
      | cons l rest =>
        have hr : rest.length ≤ len := by simp only [List.length_cons] at hl; omega
        cases hspan : lineSpan l rest with
        | none =>
          rw [rule1Lines_cons_none l rest hspan]
          exact List.Sublist.cons₂ l (ih rest hr)
        | some k =>
          rw [rule1Lines_cons_some l rest k hspan]
          have h1 : List.Sublist (rule1Lines (rest.drop k)) (rest.drop k) :=
            ih (rest.drop k) (le_trans (by simp [List.length_drop]) hr)
          exact List.Sublist.cons l (h1.trans (List.drop_sublist k rest))
  exact H ls.length ls le_rfl

theorem findGtLine_eq_none (rest : List (List Char)) :
    findGtLine rest = none ↔ ∀ r ∈ rest, r.contains '>' = false := by
  induction rest with
  | nil => simp [findGtLine]
  | cons r rs ih =>
    cases h : r.contains '>' with
    | true =>
      simp only [findGtLine, h, if_true]
      constructor
      · intro hc; exact absurd hc (by simp)
      · intro hall
        have h1 := hall r (List.mem_cons_self _ _)
        rw [h] at h1
        exact absurd h1 (by simp)
    | false =>
      simp only [findGtLine, h, Bool.false_eq_true, if_false]
      constructor
      · intro hm r' hr'
        rcases List.mem_cons.mp hr' with h' | h'
        · subst h'; exact h
        · refine ih.mp ?_ r' h'
          cases hfind : findGtLine rs with
          | none => rfl
          | some k => rw [hfind] at hm; simp at hm
      · intro hall
        have h1 : findGtLine rs = none :=
          ih.mpr fun r' h' => hall r' (List.mem_cons_of_mem _ h')
        rw [h1]; rfl

theorem tryTokens_none_tokens (l : List Char) (rest : List (List Char)) :
    ∀ toks, tryTokens l rest toks = none → ∀ i ∈ toks, hasGtAt l (i + 8) = false := by
  intro toks
  induction toks with
  | nil => intro _ i hi; simp at hi
  | cons i is ih =>
    intro h j hj
    by_cases hgt : hasGtAt l (i + 8)
    · simp [tryTokens, hgt] at h
    · rcases List.mem_cons.mp hj with h' | h'
      · subst h'; simpa using hgt
      · simp only [tryTokens, if_neg hgt] at h
        cases hfind : findGtLine rest with
        | none =>
          rw [hfind] at h
          exact ih h j h'
        | some k => rw [hfind] at h; simp at h

theorem tryTokens_none_find (l : List Char) (rest : List (List Char)) (i : Nat) (is : List Nat)
    (h : tryTokens l rest (i :: is) = none) : findGtLine rest = none := by
  by_cases hgt : hasGtAt l (i + 8)
  · simp [tryTokens, hgt] at h
  · simp only [tryTokens, if_neg hgt] at h
    cases hfind : findGtLine rest with
    | none => rfl
    | some k => rw [hfind] at h; simp at h

theorem tryTokens_none_intro (l : List Char) (rest : List (List Char)) :
    ∀ toks, (∀ i ∈ toks, hasGtAt l (i + 8) = false) → findGtLine rest = none →
      tryTokens l rest toks = none := by
  intro toks
  induction toks with
  | nil => intro _ _; rfl
  | cons i is ih =>
    intro hall hfind
    have hgt : hasGtAt l (i + 8) = false := hall i (List.mem_cons_self _ _)
    simp only [tryTokens, hgt, Bool.false_eq_true, if_false, hfind]
    exact ih (fun j hj => hall j (List.mem_cons_of_mem _ hj)) hfind

/-- A line that pass 1 leaves in place keeps being left in place when lines
after it are (independently) removed: dropping lines can only remove `>`
occurrences. -/
theorem lineSpan_none_mono (l : List Char) (rest rest' : List (List Char))
    (hsub : List.Sublist rest' rest) (h : lineSpan l rest = none) :
    lineSpan l rest' = none := by
  unfold lineSpan at h ⊢
  cases htoks : (tokenPositions l).reverse with
  | nil => rfl
  | cons i is =>
    rw [htoks] at h
    have h1 := tryTokens_none_tokens l rest _ h
    have h2 := tryTokens_none_find l rest i is h
    have h3 : findGtLine rest' = none :=
      (findGtLine_eq_none rest').mpr fun r hr =>
        (findGtLine_eq_none rest).mp h2 r (hsub.subset hr)
    exact tryTokens_none_intro l rest' _ h1 h3

/-- No line of the list starts a pass-1 match, given the lines after it. -/
def r1clean : List (List Char) → Prop
  | [] => True
  | l :: rest => lineSpan l rest = none ∧ r1clean rest

theorem r1clean_eq_self : ∀ ls : List (List Char), r1clean ls → rule1Lines ls = ls := by
  intro ls
  induction ls with
  | nil => intro _; rfl
  | cons l rest ih =>
    intro h
    rw [rule1Lines_cons_none l rest h.1, ih h.2]

theorem r1clean_of_sublist {ls' ls : List (List Char)}
    (hsub : List.Sublist ls' ls) (h : r1clean ls) : r1clean ls' := by
  induction hsub with
  | slnil => trivial
  | cons a hs ih => exact ih h.2
  | cons₂ a hs ih =>
    exact ⟨lineSpan_none_mono a _ _ hs h.1, ih h.2⟩

theorem r1clean_rule1Lines (ls : List (List Char)) : r1clean (rule1Lines ls) := by
  have H : ∀ (len : Nat) (ls : List (List Char)), ls.length ≤ len →
      r1clean (rule1Lines ls) := by
    intro len
    induction len with
    | zero =>
      intro ls hl
      have : ls = [] := List.eq_nil_of_length_eq_zero (Nat.le_zero.mp hl)
      subst this
      rw [rule1Lines_nil]; trivial
    | succ len ih =>
      intro ls hl
      cases ls with
      | nil => rw [rule1Lines_nil]; trivial
      | cons l rest =>
        have hr : rest.length ≤ len := by simp only [List.length_cons] at hl; omega
        cases hspan : lineSpan l rest with
        | none =>
          rw [rule1Lines_cons_none l rest hspan]
          refine ⟨?_, ih rest hr⟩
          exact lineSpan_none_mono l rest _ (rule1Lines_sublist rest) hspan
        | some k =>
          rw [rule1Lines_cons_some l rest k hspan]
          exact ih (rest.drop k) (le_trans (by simp [List.length_drop]) hr)
  exact H ls.length ls le_rfl

theorem dropWhile_idem (p : α → Bool) (l : List α) :
    (l.dropWhile p).dropWhile p = l.dropWhile p := by
  induction l with
  | nil => rfl
  | cons a l ih =>
    by_cases h : p a
    · simp [List.dropWhile_cons, h, ih]
    · simp [List.dropWhile_cons, h]

theorem dropWhile_head_not (p : α → Bool) (L : List α) (l : α) (ls : List α)
    (h : L.dropWhile p = l :: ls) : p l = false := by
  induction L with
  | nil => simp at h
  | cons a L ih =>
    by_cases ha : p a
    · rw [List.dropWhile_cons, if_pos ha] at h
      exact ih h
    · rw [List.dropWhile_cons, if_neg ha] at h
      cases h
      simpa using ha

/-- The four passes of `remove_malformed_links` on the complete-line list. -/
def sanitizeLines (ls : List (List Char)) : List (List Char) :=
  ((((rule1Lines ls).filter fun l => !lineHasEmail l).filter fun l =>
      !lineHasPhone l).dropWhile isBlankLine)

theorem remove_malformed_links_eq (x : List Char) :
    remove_malformed_links x =
      joinLines (sanitizeLines (splitLines x).1) (splitLines x).2 := rfl

theorem sanitizeLines_sublist (ls : List (List Char)) :
    List.Sublist (sanitizeLines ls) ls :=
  (List.dropWhile_sublist _).trans ((List.filter_sublist _).trans
    ((List.filter_sublist _).trans (rule1Lines_sublist ls)))

theorem sanitizeLines_idem (ls : List (List Char)) :
    sanitizeLines (sanitizeLines ls) = sanitizeLines ls := by
  have h43 : List.Sublist (sanitizeLines ls)
      (((rule1Lines ls).filter fun l => !lineHasEmail l).filter fun l => !lineHasPhone l) :=
    List.dropWhile_sublist _
  have h42 : List.Sublist (sanitizeLines ls)
      ((rule1Lines ls).filter fun l => !lineHasEmail l) :=
    h43.trans (List.filter_sublist _)
  have h41 : List.Sublist (sanitizeLines ls) (rule1Lines ls) :=
    h42.trans (List.filter_sublist _)
  have step1 : rule1Lines (sanitizeLines ls) = sanitizeLines ls :=
    r1clean_eq_self _ (r1clean_of_sublist h41 (r1clean_rule1Lines ls))
  have step2 : (sanitizeLines ls).filter (fun l => !lineHasEmail l) = sanitizeLines ls := by
    refine List.filter_eq_self.mpr fun l hl => ?_
    exact (List.mem_filter.mp (h42.subset hl)).2
  have step3 : (sanitizeLines ls).filter (fun l => !lineHasPhone l) = sanitizeLines ls := by
    refine List.filter_eq_self.mpr fun l hl => ?_
    exact (List.mem_filter.mp (h43.subset hl)).2
  have step4 : (sanitizeLines ls).dropWhile isBlankLine = sanitizeLines ls := by
    show ((((rule1Lines ls).filter fun l => !lineHasEmail l).filter fun l =>
        !lineHasPhone l).dropWhile isBlankLine).dropWhile isBlankLine = _
    rw [dropWhile_idem]
    rfl
  conv_lhs => rw [show sanitizeLines (sanitizeLines ls) =
    ((((rule1Lines (sanitizeLines ls)).filter fun l => !lineHasEmail l).filter fun l =>
      !lineHasPhone l).dropWhile isBlankLine) from rfl]
  rw [step1, step2, step3, step4]

/-- C2: the sanitizer is idempotent: applying `remove_malformed_links` to its
own output yields that output unchanged. -/
theorem remove_malformed_links_idem (x : List Char) :
    remove_malformed_links (remove_malformed_links x) = remove_malformed_links x := by
  have hnl := splitLines_no_newline x
  have hls : ∀ l ∈ sanitizeLines (splitLines x).1, '\n' ∉ l :=
    fun l hl => hnl.1 l ((sanitizeLines_sublist _).subset hl)
  have hsplit : splitLines (joinLines (sanitizeLines (splitLines x).1) (splitLines x).2)
      = (sanitizeLines (splitLines x).1, (splitLines x).2) :=
    splitLines_joinLines _ _ hls hnl.2
  conv_lhs => rw [remove_malformed_links_eq x, remove_malformed_links_eq, hsplit]
  rw [remove_malformed_links_eq x]
  simp only [sanitizeLines_idem]

/-- C3 fails on the code: `re.sub(r'^\s*\n', '', content)` carries no
`re.MULTILINE`, so `^` anchors only at position 0 and a blank line that is
not part of the leading whitespace block survives.  On `"a\n\nb"` the
sanitizer returns the text unchanged and its line list still holds the empty
line. -/
theorem remove_malformed_links_keeps_inner_blank_line :
    ((splitLines (remove_malformed_links ('a' :: '\n' :: '\n' :: 'b' :: []))).1.any
      isBlankLine) = true := by decide

/-- C3 amended: the sanitizer drops exactly the leading run of empty or
whitespace-only newline-terminated lines; consequently the first complete
line of its output, when one exists, is never blank (blank lines later in
the text are kept). -/
theorem remove_malformed_links_first_line_not_blank (x : List Char) (l : List Char)
    (ls : List (List Char)) (h : (splitLines (remove_malformed_links x)).1 = l :: ls) :
    isBlankLine l = false := by
  have hnl := splitLines_no_newline x
  have hls : ∀ l' ∈ sanitizeLines (splitLines x).1, '\n' ∉ l' :=
    fun l' hl' => hnl.1 l' ((sanitizeLines_sublist _).subset hl')
  rw [remove_malformed_links_eq x,
    splitLines_joinLines _ _ hls hnl.2] at h
  exact dropWhile_head_not isBlankLine _ l ls h

/-- Witness for the amended C3 at `" \na\n"`: the leading blank line is
dropped and the first remaining line `"a"` is not blank. -/
theorem remove_malformed_links_first_line_not_blank_witness :
    (splitLines (remove_malformed_links (' ' :: '\n' :: 'a' :: '\n' :: []))).1 =
        ['a'] :: [] ∧
      isBlankLine ['a'] = false :=
  ⟨by decide, remove_malformed_links_first_line_not_blank
    (' ' :: '\n' :: 'a' :: '\n' :: []) ['a'] [] (by decide)⟩

theorem splitLines_cons (c : Char) (rest : List Char) :
    splitLines (c :: rest) =
      if c = '\n' then ([] :: (splitLines rest).1, (splitLines rest).2)
      else consHead c (splitLines rest) := rfl

theorem splitLines_tail_ne_nil (x : List Char) (hx : x ≠ []) (h : x.getLast? ≠ some '\n') :
    (splitLines x).2 ≠ [] := by
  induction x with
  | nil => exact absurd rfl hx
  | cons c rest ih =>
    cases rest with
    | nil =>
      have hc : c ≠ '\n' := by
        intro hc
        subst hc
        exact h rfl
      rw [splitLines_cons, if_neg hc]
      simp [splitLines, consHead]
    | cons d rest' =>
      have hlast : (c :: d :: rest').getLast? = (d :: rest').getLast? :=
        List.getLast?_cons_cons
      have ih' : (splitLines (d :: rest')).2 ≠ [] := by
        refine ih (by simp) ?_
        rw [hlast] at h
        exact h
      rw [splitLines_cons]
      by_cases hc : c = '\n'
      · rw [if_pos hc]
        simpa using ih'
      · rw [if_neg hc]
        rcases hp : splitLines (d :: rest') with ⟨ls, t⟩
        rw [hp] at ih'
        cases ls with
        | nil => simpa [consHead] using ih'
        | cons l ls' => simpa [consHead] using ih'

/-- C10: every removal rule of `remove_malformed_links` (malformed link,
email, phone, blank) ends in a literal `\n` and so can only drop
newline-terminated lines; when the input does not end with a newline, its
final (unterminated, nonempty) line always survives as a suffix of the
output, whatever it contains. -/
theorem remove_malformed_links_keeps_final_line (x : List Char)
    (h : x.getLast? ≠ some '\n') :
    (splitLines (remove_malformed_links x)).2 = (splitLines x).2 ∧
      (∃ a, remove_malformed_links x = a ++ (splitLines x).2) ∧
      (x ≠ [] → (splitLines x).2 ≠ []) := by
  have hnl := splitLines_no_newline x
  have hls : ∀ l ∈ sanitizeLines (splitLines x).1, '\n' ∉ l :=
    fun l hl => hnl.1 l ((sanitizeLines_sublist _).subset hl)
  refine ⟨?_, ?_, fun hx => splitLines_tail_ne_nil x hx h⟩
  · rw [remove_malformed_links_eq x, splitLines_joinLines _ _ hls hnl.2]
  · exact ⟨((sanitizeLines (splitLines x).1).map (fun l => l ++ ['\n'])).flatten, rfl⟩

/-- Witness for C10 at `"call\n555-123-4567"`: the final line matches the
phone-number rule yet is preserved because it lacks a terminating newline. -/
theorem remove_malformed_links_keeps_final_line_witness :
    ("call\n555-123-4567".toList.getLast? ≠ some '\n') ∧
      lineHasPhone (splitLines "call\n555-123-4567".toList).2 = true ∧
      ((splitLines (remove_malformed_links "call\n555-123-4567".toList)).2 =
          (splitLines "call\n555-123-4567".toList).2 ∧
        (∃ a, remove_malformed_links "call\n555-123-4567".toList =
            a ++ (splitLines "call\n555-123-4567".toList).2) ∧
        ("call\n555-123-4567".toList ≠ [] →
          (splitLines "call\n555-123-4567".toList).2 ≠ [])) :=
  ⟨by decide, by decide,
    remove_malformed_links_keeps_final_line "call\n555-123-4567".toList (by decide)⟩

/-! ### Safe filename derivation (`create_safe_filename`, lines 131–149)

`url.replace('https://', '').replace('http://', '').replace('www.', '')`,
then `re.sub(r'[\\/*?:"<>|]', '_', ·)`, then `re.sub(r'[/\.]+', '_', ·)`,
then truncation to 200 characters.
-/

def strReplaceAux (old new : List Char) : Nat → List Char → List Char
  | _, [] => []
  | 0, s => s
  | fuel + 1, c :: rest =>
    match !old.isEmpty && old.isPrefixOf (c :: rest) with
    | true => new ++ strReplaceAux old new fuel ((c :: rest).drop old.length)
    | false => c :: strReplaceAux old new fuel rest

/-- Python `str.replace(old, new)`: replace the non-overlapping occurrences
of `old` left to right. -/
def strReplace (old new s : List Char) : List Char := strReplaceAux old new s.length s

/-- The reserved set `[\\/*?:"<>|]` of the first `re.sub`. -/
def isReservedChar (c : Char) : Bool :=
  c = '\\' || c = '/' || c = '*' || c = '?' || c = ':' || c = '"' ||
    c = '<' || c = '>' || c = '|'

/-- The class `[/\.]` of the second `re.sub`. -/
def isSlashOrDot (c : Char) : Bool := c = '/' || c = '.'

def collapseGo (p : Char → Bool) : Bool → List Char → List Char
  | _, [] => []
  | inRun, c :: rest =>
    match p c, inRun with
    | true, true => collapseGo p true rest
    | true, false => '_' :: collapseGo p true rest
    | false, _ => c :: collapseGo p false rest

/-- `re.sub(r'[/\.]+', '_', s)`: each maximal run of characters matching `p`
becomes a single underscore. -/
def collapseRuns (p : Char → Bool) (s : List Char) : List Char := collapseGo p false s

/-- `create_safe_filename`: strip the scheme markers and every occurrence of
`"www."`, replace reserved characters by `_`, collapse runs of slashes and
dots to `_`, truncate to 200 characters. -/
def create_safe_filename (url : List Char) : List Char :=
  let s1 := strReplace "https://".toList [] url
  let s2 := strReplace "http://".toList [] s1
  let s3 := strReplace "www.".toList [] s2
  let s4 := s3.map fun c => if isReservedChar c then '_' else c
  let s5 := collapseRuns isSlashOrDot s4
  if 200 < s5.length then s5.take 200 else s5

theorem strReplaceAux_congr (old new : List Char) :
    ∀ (f g : Nat) (s : List Char), s.length ≤ f → s.length ≤ g →
      strReplaceAux old new f s = strReplaceAux old new g s := by
  intro f
  induction f with
  | zero =>
    intro g s hf _
    have : s = [] := List.eq_nil_of_length_eq_zero (Nat.le_zero.mp hf)
    subst this
    cases g <;> rfl
  | succ f ih =>
    intro g s hf hg
    cases s with
    | nil => cases g <;> rfl
    | cons c rest =>
      cases g with
      | zero => exact absurd hg (by simp)
      | succ g =>
        have hr : rest.length ≤ f := by simp only [List.length_cons] at hf; omega
        have hg' : rest.length ≤ g := by simp only [List.length_cons] at hg; omega
        cases hcond : (!old.isEmpty && old.isPrefixOf (c :: rest)) with
        | true =>
          simp only [strReplaceAux, hcond]
          have hold : old ≠ [] := by
            intro h0
            subst h0
            simp at hcond
          have hlen : ((c :: rest).drop old.length).length ≤ rest.length := by
            have h1 : 0 < old.length := List.length_pos.mpr hold
            simp only [List.length_drop, List.length_cons]
            omega
          rw [ih g _ (le_trans hlen hr) (le_trans hlen hg')]
        | false =>
          simp only [strReplaceAux, hcond]
          rw [ih g rest hr hg']

theorem strReplace_nil (old new : List Char) : strReplace old new [] = [] := rfl

theorem strReplace_cons_match (old new : List Char) (c : Char) (rest : List Char)
    (h : (!old.isEmpty && old.isPrefixOf (c :: rest)) = true) :
    strReplace old new (c :: rest) =
      new ++ strReplace old new ((c :: rest).drop old.length) := by
  show strReplaceAux old new (rest.length + 1) (c :: rest) = _
  simp only [strReplaceAux, h]
  have hold : old ≠ [] := by
    intro h0
    subst h0
    simp at h
  have hlen : ((c :: rest).drop old.length).length ≤ rest.length := by
    have h1 : 0 < old.length := List.length_pos.mpr hold
    simp only [List.length_drop, List.length_cons]
    omega
  rw [strReplaceAux_congr old new rest.length ((c :: rest).drop old.length).length _ hlen le_rfl]
  rfl

theorem strReplace_cons_nomatch (old new : List Char) (c : Char) (rest : List Char)
    (h : (!old.isEmpty && old.isPrefixOf (c :: rest)) = false) :
    strReplace old new (c :: rest) = c :: strReplace old new rest := by
  show strReplaceAux old new (rest.length + 1) (c :: rest) = _
  simp only [strReplaceAux, h]
  rfl

theorem isPrefixOf_self_append (l b : List Char) : l.isPrefixOf (l ++ b) = true := by
  induction l with
  | nil => simp [List.isPrefixOf]
  | cons c rest ih => simp [List.isPrefixOf, ih]

/-- A replacement pass meets the leftmost occurrence of `old`: everything
before it is copied, the occurrence is replaced, and the pass continues
after it. -/
theorem strReplace_append_occurrence (old new : List Char) (hold : old ≠ []) :
    ∀ (a b : List Char),
      (∀ i, i < a.length → old.isPrefixOf ((a ++ old ++ b).drop i) = false) →
      strReplace old new (a ++ old ++ b) = a ++ new ++ strReplace old new b := by
  intro a
  induction a with
  | nil =>
    intro b _
    obtain ⟨o, os, ho⟩ : ∃ o os, old = o :: os := by
      cases old with
      | nil => exact absurd rfl hold
      | cons o os => exact ⟨o, os, rfl⟩
    simp only [List.nil_append]
    have hmatch : (!old.isEmpty && old.isPrefixOf (old ++ b)) = true := by
      rw [isPrefixOf_self_append]
      subst ho
      simp
    have hcons : old ++ b = o :: (os ++ b) := by rw [ho]; rfl
    rw [hcons] at hmatch ⊢
    rw [strReplace_cons_match old new o (os ++ b) hmatch]
    have hdrop : (o :: (os ++ b)).drop old.length = b := by
      rw [← hcons]
      exact List.drop_left old b
    rw [hdrop]
  | cons c a' ih =>
    intro b h
    have h0 : old.isPrefixOf ((c :: a') ++ old ++ b) = false := by
      have := h 0 (by simp)
      simpa using this
    have hnm : (!old.isEmpty && old.isPrefixOf (c :: (a' ++ old ++ b))) = false := by
      rw [show c :: (a' ++ old ++ b) = (c :: a') ++ old ++ b from rfl, h0]
      simp
    have hstep : (c :: a') ++ old ++ b = c :: (a' ++ old ++ b) := rfl
    rw [hstep, strReplace_cons_nomatch old new c _ hnm,
      ih b fun i hi => by
        have := h (i + 1) (by simp only [List.length_cons]; omega)
        simpa using this]
    rfl

theorem collapseGo_chars (p : Char → Bool) :
    ∀ (b : Bool) (s : List Char) (c : Char), c ∈ collapseGo p b s → c = '_' ∨ c ∈ s := by
  intro b s
  induction s generalizing b with
  | nil => intro c hc; simp [collapseGo] at hc
  | cons a rest ih =>
    intro c hc
    cases hp : p a with
    | true =>
      cases b with
      | true =>
        simp only [collapseGo, hp] at hc
        rcases ih true c hc with h | h
        · exact Or.inl h
        · exact Or.inr (List.mem_cons_of_mem _ h)
      | false =>
        simp only [collapseGo, hp] at hc
        rcases List.mem_cons.mp hc with h | h
        · exact Or.inl h
        · rcases ih true c h with h' | h'
          · exact Or.inl h'
          · exact Or.inr (List.mem_cons_of_mem _ h')
    | false =>
      simp only [collapseGo, hp] at hc
      rcases List.mem_cons.mp hc with h | h
      · subst h
        exact Or.inr (List.mem_cons_self _ _)
      · rcases ih false c h with h' | h'
        · exact Or.inl h'
        · exact Or.inr (List.mem_cons_of_mem _ h')

/-- C4: for every URL, the derived name holds none of the reserved
characters `\ / * ? : " < > |`, has length at most 200, and the derivation
is deterministic (it is a pure function of the URL text). -/
theorem create_safe_filename_safe (url : List Char) :
    ((create_safe_filename url).all fun c => !isReservedChar c) = true ∧
      (create_safe_filename url).length ≤ 200 ∧
      ∀ url2, url = url2 → create_safe_filename url = create_safe_filename url2 := by
  refine ⟨?_, ?_, fun url2 h => h ▸ rfl⟩
  · rw [List.all_eq_true]
    intro c hc
    have hc5 : c ∈ collapseRuns isSlashOrDot
        ((strReplace "www.".toList [] (strReplace "http://".toList []
          (strReplace "https://".toList [] url))).map
          fun c => if isReservedChar c then '_' else c) := by
      unfold create_safe_filename at hc
      dsimp only at hc
      split at hc
      · exact List.mem_of_mem_take hc
      · exact hc
    rcases collapseGo_chars isSlashOrDot false _ c hc5 with h | h
    · subst h
      decide
    · rcases List.mem_map.mp h with ⟨x, _, hmap⟩
      by_cases hr : isReservedChar x
      · rw [← hmap, if_pos hr]
        decide
      · rw [← hmap, if_neg hr]
        simpa using hr
  · unfold create_safe_filename
    dsimp only
    split
    · simp [List.length_take]
    · next h => omega

/-- Witness for C4 at `https://www.example.com/a/b.html`. -/
theorem create_safe_filename_safe_witness :
    ((create_safe_filename "https://www.example.com/a/b.html".toList).all
        fun c => !isReservedChar c) = true ∧
      (create_safe_filename "https://www.example.com/a/b.html".toList).length ≤ 200 ∧
      ∀ url2, "https://www.example.com/a/b.html".toList = url2 →
        create_safe_filename "https://www.example.com/a/b.html".toList =
          create_safe_filename url2 :=
  create_safe_filename_safe "https://www.example.com/a/b.html".toList

/-- The pattern occurs somewhere in the text. -/
def occursIn (pat s : List Char) : Bool :=
  (List.range (s.length + 1)).any fun i => pat.isPrefixOf (s.drop i)

/-- C5 fails on the code: `str.replace('www.', '')` removes every occurrence
of `"www."`, not only a leading label.  For
`https://example.com/www.page` the `www.` inside the path is stripped: the
derived name is `example_com_page` and no `www` remains in it, while the
claim asserts the remainder of the URL is preserved up to character
replacements and truncation. -/
theorem create_safe_filename_inner_www_stripped :
    create_safe_filename "https://example.com/www.page".toList =
        "example_com_page".toList ∧
      occursIn "www".toList
        (create_safe_filename "https://example.com/www.page".toList) = false := by
  decide

/-- C5 amended: the `www.`-stripping step (`url.replace('www.', '')`)
removes an occurrence of `"www."` wherever it stands — inside the path as
well — not only as a leading label: whenever the leftmost occurrence of
`"www."` follows the text `a`, the pass deletes it and continues in the
remaining text. -/
theorem strReplace_www_any_position (a b : List Char)
    (h : ((List.range a.length).all fun i =>
      !("www.".toList.isPrefixOf ((a ++ "www.".toList ++ b).drop i))) = true) :
    strReplace "www.".toList [] (a ++ "www.".toList ++ b) =
      a ++ strReplace "www.".toList [] b := by
  have h' : ∀ i, i < a.length →
      "www.".toList.isPrefixOf ((a ++ "www.".toList ++ b).drop i) = false := by
    intro i hi
    have := List.all_eq_true.mp h i (List.mem_range.mpr hi)
    simpa using this
  have hrw := strReplace_append_occurrence "www.".toList [] (by decide) a b h'
  simpa using hrw

/-- Witness for the amended C5: the non-leading occurrence of `"www."` in
`example.com/www.page` is removed. -/
theorem strReplace_www_any_position_witness :
    (((List.range "example.com/".toList.length).all fun i =>
      !("www.".toList.isPrefixOf (("example.com/".toList ++ "www.".toList ++
        "page".toList).drop i))) = true) ∧
      strReplace "www.".toList []
          ("example.com/".toList ++ "www.".toList ++ "page".toList) =
        "example.com/".toList ++ strReplace "www.".toList [] "page".toList :=
  ⟨by decide, strReplace_www_any_position "example.com/".toList "page".toList (by decide)⟩

/-! ### Peak-memory tracking (`log_memory`, lines 52–57)

`current_mem = process.memory_info().rss; if current_mem > peak_memory:
peak_memory = current_mem`.  A run's samples are the successive `rss`
readings; the tracker folds over them starting from `peak_memory = 0`.
-/

/-- The update `log_memory` applies to the `peak_memory` variable for one
sample. -/
def log_memory (peak current : Nat) : Nat :=
  if peak < current then current else peak

theorem log_memory_eq_max (peak current : Nat) :
    log_memory peak current = max peak current := by
  unfold log_memory
  split <;> omega

theorem foldl_log_memory (l : List Nat) :
    ∀ peak, l.foldl log_memory peak = max peak (l.foldr max 0) := by
  induction l with
  | nil =>
    intro peak
    simp
  | cons s rest ih =>
    intro peak
    rw [List.foldl_cons, ih, List.foldr_cons, log_memory_eq_max]
    omega

/-- C7: each sample can only raise the peak variable (monotone
non-decreasing), and after the first `i` samples of a run (which starts at
`peak_memory = 0`) the variable equals the maximum sample observed so far. -/
theorem log_memory_peak (samples : List Nat) :
    (∀ peak current, peak ≤ log_memory peak current) ∧
      ∀ i, (samples.take i).foldl log_memory 0 = (samples.take i).foldr max 0 := by
  constructor
  · intro peak current
    rw [log_memory_eq_max]
    omega
  · intro i
    rw [foldl_log_memory]
    omega

/-! ### Path helpers (POSIX `os.path`)

`os.path.join`, `os.path.basename` and `os.path.splitext` as used by both
scripts, modelled on their POSIX definitions.
-/

/-- Index of the last occurrence of a character (`str.rfind`), `none` when
absent. -/
def rlast (ch : Char) (p : List Char) : Option Nat :=
  (List.range p.length).foldl
    (fun acc i => if p.getD i ' ' = ch then some i else acc) none

/-- `os.path.splitext`: split at the last dot of the base name, unless every
character of the base name before that dot is itself a dot. -/
def splitext (p : List Char) : List Char × List Char :=
  match rlast '.' p with
  | none => (p, [])
  | some d =>
    let s := match rlast '/' p with
      | none => 0
      | some s' => s' + 1
    if s ≤ d ∧ (List.range d).any (fun j => decide (s ≤ j) && !(p.getD j ' ' == '.')) then
      (p.take d, p.drop d)
    else (p, [])

/-- `os.path.basename` (POSIX): the part after the last slash. -/
def basename (p : List Char) : List Char :=
  (p.reverse.takeWhile fun c => !(c == '/')).reverse

/-- `os.path.join` (POSIX, two components). -/
def pathJoin (a b : List Char) : List Char :=
  if b.headD ' ' = '/' ∧ b ≠ [] then b
  else if a = [] ∨ a.getLast? = some '/' then a ++ b
  else a ++ '/' :: b

/-! ### Result triage of `crawl_parallel` (lines 89–118)

`results = await asyncio.gather(*tasks, return_exceptions=True)`, then
`for url, result in zip(batch, results)`: an exception is printed and
counted as a failure; `result.success` prints two lines, sanitizes and
writes the markdown file; otherwise only `fail_count += 1` runs.
`fetch` abstracts `crawler.arun` as a per-URL outcome.
-/

/-- What `gather(..., return_exceptions=True)` hands back for one URL. -/
inductive FetchResult where
  | exc
  | res (success : Bool) (markdown : List Char)

/-- Console lines issued by the per-result branch of `crawl_parallel`. -/
inductive LogEvent where
  | errorCrawling (url : List Char)
  | successfullyCrawled (url : List Char)
  | markdownLength (n : Nat)

structure CrawlState where
  success_count : Nat
  fail_count : Nat
  files : List (List Char × List Char)
  logs : List LogEvent

def initState : CrawlState := ⟨0, 0, [], []⟩

/-- One iteration of `for url, result in zip(batch, results)`. -/
def handleResult (output_dir url : List Char) (r : FetchResult) (st : CrawlState) :
    CrawlState :=
  match r with
  | .exc =>
    { st with fail_count := st.fail_count + 1,
              logs := st.logs ++ [.errorCrawling url] }
  | .res true md =>
    { st with success_count := st.success_count + 1,
              logs := st.logs ++ [.successfullyCrawled url, .markdownLength md.length],
              files := st.files ++
                [(pathJoin output_dir (create_safe_filename url ++ ".md".toList),
                  "# Crawled Content from ".toList ++ url ++ "\n\n".toList ++
                    remove_malformed_links md)] }
  | .res false _ =>
    { st with fail_count := st.fail_count + 1 }

/-- The batch loop of `crawl_parallel` with its per-result triage: batches
in order, URLs of a batch in order. -/
def crawl_parallel (urls : List (List Char)) (fetch : List Char → FetchResult)
    (output_dir : List Char) (max_concurrent : Nat) : CrawlState :=
  (chunkList max_concurrent urls).foldl
    (fun st batch =>
      batch.foldl (fun st url => handleResult output_dir url (fetch url) st) st)
    initState

def isSuccessResult : FetchResult → Bool
  | .res true _ => true
  | _ => false

def isExcResult : FetchResult → Bool
  | .exc => true
  | _ => false

def isErrorLog : LogEvent → Bool
  | .errorCrawling _ => true
  | _ => false

/-- C6 fails on the code: a result whose `success` flag is false reaches the
bare `else: fail_count += 1` branch, which prints nothing.  For a one-URL
run whose fetch reports `success = False`, the failure counter becomes 1 but
the log is empty: no log line is produced for that failure. -/
theorem crawl_parallel_flag_failure_not_logged :
    (crawl_parallel ["u".toList] (fun _ => .res false []) [] 1).fail_count = 1 ∧
      (crawl_parallel ["u".toList] (fun _ => .res false []) [] 1).logs = [] :=
  ⟨rfl, rfl⟩

theorem countP_add_countP_not (p : α → Bool) (l : List α) :
    l.countP p + l.countP (fun a => !p a) = l.length := by
  induction l with
  | nil => rfl
  | cons a l ih =>
    rw [List.countP_cons, List.countP_cons, List.length_cons]
    cases h : p a <;> simp [h] <;> omega

theorem crawl_fold_counts (output_dir : List Char) (fetch : List Char → FetchResult) :
    ∀ (urls : List (List Char)) (st : CrawlState),
      (urls.foldl (fun s u => handleResult output_dir u (fetch u) s) st).success_count =
          st.success_count + urls.countP (fun u => isSuccessResult (fetch u)) ∧
        (urls.foldl (fun s u => handleResult output_dir u (fetch u) s) st).fail_count =
          st.fail_count + urls.countP (fun u => !isSuccessResult (fetch u)) ∧
        (urls.foldl (fun s u => handleResult output_dir u (fetch u) s) st).logs.countP
            isErrorLog =
          st.logs.countP isErrorLog + urls.countP (fun u => isExcResult (fetch u)) := by
  intro urls
  induction urls with
  | nil => intro st; simp
  | cons u rest ih =>
    intro st
    rw [List.foldl_cons]
    rcases ih (handleResult output_dir u (fetch u) st) with ⟨h1, h2, h3⟩
    refine ⟨?_, ?_, ?_⟩
    · rw [h1, List.countP_cons]
      cases hf : fetch u with
      | exc => simp [handleResult, isSuccessResult, hf]
      | res success md =>
        cases success <;> simp [handleResult, isSuccessResult, hf] <;> omega
    · rw [h2, List.countP_cons]
      cases hf : fetch u with
      | exc => simp [handleResult, isSuccessResult, hf]; omega
      | res success md =>
        cases success <;> simp [handleResult, isSuccessResult, hf] <;> omega
    · rw [h3, List.countP_cons]
      cases hf : fetch u with
      | exc =>
        simp [handleResult, isExcResult, hf, List.countP_append, isErrorLog]
        omega
      | res success md =>
        cases success <;>
          simp [handleResult, isExcResult, hf, List.countP_append, isErrorLog] <;> omega

/-- C6 amended: a fetch failure — raised exception or false success flag —
is absorbed locally, never aborts the batch or the run, and is counted:
every URL of every batch is triaged, the failure counter counts exactly the
failing URLs, the success counter the rest, and each exception (but not a
flag-only failure) also produces an error log line. -/
theorem crawl_parallel_failures_counted (urls : List (List Char))
    (fetch : List Char → FetchResult) (output_dir : List Char) (n : Nat) (hn : 0 < n) :
    (crawl_parallel urls fetch output_dir n).success_count =
        urls.countP (fun u => isSuccessResult (fetch u)) ∧
      (crawl_parallel urls fetch output_dir n).fail_count =
        urls.countP (fun u => !isSuccessResult (fetch u)) ∧
      (crawl_parallel urls fetch output_dir n).success_count +
          (crawl_parallel urls fetch output_dir n).fail_count = urls.length ∧
      (crawl_parallel urls fetch output_dir n).logs.countP isErrorLog =
        urls.countP (fun u => isExcResult (fetch u)) := by
  have hfold : crawl_parallel urls fetch output_dir n =
      urls.foldl (fun s u => handleResult output_dir u (fetch u) s) initState := by
    unfold crawl_parallel
    rw [← chunkList_flatten n hn urls, List.foldl_flatten]
    rw [chunkList_flatten n hn urls]
  rcases crawl_fold_counts output_dir fetch urls initState with ⟨h1, h2, h3⟩
  rw [hfold, h1, h2, h3]
  have hlen := countP_add_countP_not (fun u => isSuccessResult (fetch u)) urls
  refine ⟨by simp [initState], by simp [initState], ?_, by simp [initState]⟩
  simp only [initState]
  omega

/-- A concrete fetch oracle: `a` raises, `b` succeeds, `c` reports
`success = False`. -/
def demoFetch (u : List Char) : FetchResult :=
  if u = "a".toList then .exc
  else if u = "b".toList then .res true "x".toList
  else .res false []

def demoUrls : List (List Char) := ["a".toList, "b".toList, "c".toList]

/-- Witness for the amended C6: three URLs, batch size 2; one exception, one
success, one false flag: two failures, one success, one error log line. -/
theorem crawl_parallel_failures_counted_witness :
    (0 < 2) ∧
      ((crawl_parallel demoUrls demoFetch [] 2).success_count =
          (demoUrls.countP fun u => isSuccessResult (demoFetch u)) ∧
        (crawl_parallel demoUrls demoFetch [] 2).fail_count =
          (demoUrls.countP fun u => !isSuccessResult (demoFetch u)) ∧
        (crawl_parallel demoUrls demoFetch [] 2).success_count +
            (crawl_parallel demoUrls demoFetch [] 2).fail_count = demoUrls.length ∧
        (crawl_parallel demoUrls demoFetch [] 2).logs.countP isErrorLog =
          (demoUrls.countP fun u => isExcResult (demoFetch u))) :=
  ⟨by decide, crawl_parallel_failures_counted demoUrls demoFetch [] 2 (by decide)⟩

/-! ### Sitemap loader (`get_urls_from_sitemap`, lines 179–204)

`requests.get`, `raise_for_status`, `ElementTree.fromstring`, then
`root.findall('.//ns:loc', namespace)` and `[loc.text for loc in …]`; any
exception is caught, printed, and turned into `[]`.
-/

mutual
/-- An XML element: qualified tag, text, children in document order. -/
inductive XmlElem where
  | node (tag : List Char) (text : Option (List Char)) (children : XmlForest)

inductive XmlForest where
  | nil
  | cons (e : XmlElem) (es : XmlForest)
end

def XmlElem.tag : XmlElem → List Char
  | .node t _ _ => t

def XmlElem.text : XmlElem → Option (List Char)
  | .node _ tx _ => tx

def XmlElem.children : XmlElem → XmlForest
  | .node _ _ cs => cs

mutual
/-- The elements `findall('.//tag')` collects from the subtree rooted at an
element: the element itself when its qualified tag matches, then the
matches inside its children, in document order. -/
def matchingSubtree (tag : List Char) : XmlElem → List XmlElem
  | .node t tx cs =>
    if t == tag then .node t tx cs :: matchingForest tag cs
    else matchingForest tag cs

def matchingForest (tag : List Char) : XmlForest → List XmlElem
  | .nil => []
  | .cons e es => matchingSubtree tag e ++ matchingForest tag es
end

mutual
/-- Every element of a subtree, in document order. -/
def preorder : XmlElem → List XmlElem
  | .node t tx cs => .node t tx cs :: preorderForest cs

def preorderForest : XmlForest → List XmlElem
  | .nil => []
  | .cons e es => preorder e ++ preorderForest es
end

mutual
theorem matchingSubtree_eq_filter (tag : List Char) :
    ∀ e : XmlElem, matchingSubtree tag e = (preorder e).filter (fun x => x.tag == tag)
  | .node t tx cs => by
    have hcs := matchingForest_eq_filter tag cs
    show (if t == tag then XmlElem.node t tx cs :: matchingForest tag cs
        else matchingForest tag cs) =
      (XmlElem.node t tx cs :: preorderForest cs).filter (fun x => x.tag == tag)
    rw [List.filter_cons, hcs]
    cases h : (t == tag) with
    | true => simp [XmlElem.tag, h]
    | false => simp [XmlElem.tag, h]

theorem matchingForest_eq_filter (tag : List Char) :
    ∀ es : XmlForest,
      matchingForest tag es = (preorderForest es).filter (fun x => x.tag == tag)
  | .nil => rfl
  | .cons e es => by
    have h1 := matchingSubtree_eq_filter tag e
    have h2 := matchingForest_eq_filter tag es
    show matchingSubtree tag e ++ matchingForest tag es =
      (preorder e ++ preorderForest es).filter (fun x => x.tag == tag)
    rw [List.filter_append, h1, h2]
end

/-- The qualified tag ElementTree matches for `.//ns:loc` with
`ns = http://www.sitemaps.org/schemas/sitemap/0.9`. -/
def sitemapLocTag : List Char :=
  "\x7bhttp://www.sitemaps.org/schemas/sitemap/0.9\x7dloc".toList

/-- The outcome of `requests.get(sitemap_url)` plus body parsing as seen by
`get_urls_from_sitemap`: a network fault, or a response with an HTTP status
whose body either parses to a root element or fails to parse (`none`). -/
inductive SitemapFetch where
  | netError
  | response (status : Nat) (parsed : Option XmlElem)

/-- `response.raise_for_status()` raises an `HTTPError` exactly for client
errors (4xx) and server errors (5xx). -/
def raiseForStatus (status : Nat) : Bool :=
  decide (400 ≤ status) && decide (status < 600)

/-- `get_urls_from_sitemap`: every exception along the way — network fault,
`raise_for_status`, XML parse error — is caught and turned into `[]`;
otherwise the text of every `loc` element of the sitemap namespace among
the root's descendants, in document order. -/
def get_urls_from_sitemap (fetch : SitemapFetch) : List (Option (List Char)) :=
  match fetch with
  | .netError => []
  | .response status parsed =>
    if raiseForStatus status then []
    else
      match parsed with
      | none => []
      | some root => (matchingForest sitemapLocTag root.children).map XmlElem.text

/-- C8 fails on the code: `raise_for_status` raises only for 4xx/5xx, so a
non-2xx status outside that range is not rejected.  A 300 response carrying
a parseable one-`loc` sitemap yields that URL, not the empty list the claim
requires for every non-2xx status. -/
theorem get_urls_from_sitemap_processes_3xx :
    get_urls_from_sitemap (.response 300 (some (.node "urlset".toList none
        (.cons (.node sitemapLocTag (some "https://a".toList) .nil) .nil)))) =
        [some "https://a".toList] ∧
      get_urls_from_sitemap (.response 300 (some (.node "urlset".toList none
        (.cons (.node sitemapLocTag (some "https://a".toList) .nil) .nil)))) ≠ [] :=
  ⟨rfl, by decide⟩

/-- C8 amended: the loader returns `[]` (after logging) on a network error,
on a 4xx or 5xx status, or on a parse error, with no retry; for any other
status whose body parses it returns the text of every sitemap-namespace
`loc` element — the document-order (preorder) filter of the tree — without
touching it. -/
theorem get_urls_from_sitemap_spec :
    (get_urls_from_sitemap .netError = []) ∧
      (∀ status parsed, 400 ≤ status → status < 600 →
        get_urls_from_sitemap (.response status parsed) = []) ∧
      (∀ status, get_urls_from_sitemap (.response status none) = []) ∧
      (∀ status root, ¬(400 ≤ status ∧ status < 600) →
        get_urls_from_sitemap (.response status (some root)) =
          ((preorderForest root.children).filter
            (fun x => x.tag == sitemapLocTag)).map XmlElem.text) := by
  refine ⟨rfl, ?_, ?_, ?_⟩
  · intro status parsed h4 h6
    have hb : raiseForStatus status = true := by
      unfold raiseForStatus
      simp [h4, h6]
    simp [get_urls_from_sitemap, hb]
  · intro status
    cases hb : raiseForStatus status with
    | true => simp [get_urls_from_sitemap, hb]
    | false => simp [get_urls_from_sitemap, hb]
  · intro status root hs
    have hb : raiseForStatus status = false := by
      unfold raiseForStatus
      rcases Nat.lt_or_ge status 400 with h | h
      · simp
        omega
      · rcases Nat.lt_or_ge status 600 with h' | h'
        · exact absurd ⟨h, h'⟩ hs
        · simp
          omega
    simp only [get_urls_from_sitemap, hb, Bool.false_eq_true, if_false]
    rw [matchingForest_eq_filter]

/-- Witness for the amended C8: a 200 response with two `loc` elements (one
nested) yields both texts in document order; a 404 yields `[]`. -/
theorem get_urls_from_sitemap_spec_witness :
    (400 ≤ 404 ∧ 404 < 600 ∧ ¬(400 ≤ 200 ∧ 200 < 600)) ∧
      get_urls_from_sitemap (.response 404 (some (.node "urlset".toList none .nil))) = [] ∧
      get_urls_from_sitemap (.response 200 (some (.node "urlset".toList none
          (.cons (.node "other".toList none
              (.cons (.node sitemapLocTag (some "https://b".toList) .nil) .nil))
            (.cons (.node sitemapLocTag (some "https://c".toList) .nil) .nil))))) =
        ((preorderForest (XmlElem.children (.node "urlset".toList none
          (.cons (.node "other".toList none
              (.cons (.node sitemapLocTag (some "https://b".toList) .nil) .nil))
            (.cons (.node sitemapLocTag (some "https://c".toList) .nil) .nil))))).filter
          (fun x => x.tag == sitemapLocTag)).map XmlElem.text :=
  ⟨⟨by omega, by omega, by omega⟩,
    (get_urls_from_sitemap_spec.2.1 404 _ (by omega) (by omega)),
    (get_urls_from_sitemap_spec.2.2.2 200 _ (by omega))⟩

/-! ### Output paths of `markdown_to_pdf.py` -/

theorem takeWhile_all (p : α → Bool) :
    ∀ l : List α, (∀ a ∈ l, p a = true) → l.takeWhile p = l := by
  intro l
  induction l with
  | nil => intro _; rfl
  | cons a l ih =>
    intro h
    rw [List.takeWhile_cons, if_pos (h a (List.mem_cons_self _ _)),
      ih (fun b hb => h b (List.mem_cons_of_mem _ hb))]

theorem takeWhile_append_all (p : α → Bool) (l₁ l₂ : List α)
    (h : ∀ a ∈ l₁, p a = true) :
    (l₁ ++ l₂).takeWhile p = l₁ ++ l₂.takeWhile p := by
  induction l₁ with
  | nil => rfl
  | cons a l ih =>
    rw [List.cons_append, List.takeWhile_cons, if_pos (h a (List.mem_cons_self _ _)),
      ih (fun b hb => h b (List.mem_cons_of_mem _ hb)), List.cons_append]

theorem basename_no_slash (p : List Char) : '/' ∉ basename p := by
  intro hmem
  unfold basename at hmem
  rw [List.mem_reverse] at hmem
  have := List.mem_takeWhile_imp hmem
  simp at this

theorem basename_of_no_slash (x : List Char) (hx : '/' ∉ x) : basename x = x := by
  unfold basename
  have hall : ∀ a ∈ x.reverse, (!(a == '/')) = true := by
    intro a ha
    have hmem : a ∈ x := List.mem_reverse.mp ha
    have hne : a ≠ '/' := fun h => hx (h ▸ hmem)
    simp [hne]
  rw [takeWhile_all _ x.reverse hall, List.reverse_reverse]

theorem splitext_fst_mem (p : List Char) (c : Char) (hc : c ∈ (splitext p).1) : c ∈ p := by
  unfold splitext at hc
  cases hr : rlast '.' p with
  | none => rw [hr] at hc; exact hc
  | some d =>
    rw [hr] at hc
    dsimp only at hc
    split at hc
    · exact List.mem_of_mem_take hc
    · exact hc

theorem basename_pathJoin (d x : List Char) (hx : '/' ∉ x) (hne : x ≠ []) :
    basename (pathJoin d x) = x := by
  have hhead : ¬(x.headD ' ' = '/' ∧ x ≠ []) := by
    rintro ⟨h1, _⟩
    cases x with
    | nil => exact hne rfl
    | cons c rest =>
      simp only [List.headD_cons] at h1
      exact hx (h1 ▸ List.mem_cons_self _ _)
  have hall : ∀ a ∈ x.reverse, (!(a == '/')) = true := by
    intro a ha
    have hmem : a ∈ x := List.mem_reverse.mp ha
    have hne' : a ≠ '/' := fun h => hx (h ▸ hmem)
    simp [hne']
  unfold pathJoin
  rw [if_neg hhead]
  by_cases hd : d = [] ∨ d.getLast? = some '/'
  · rw [if_pos hd]
    rcases hd with hd | hd
    · subst hd
      simpa using basename_of_no_slash x hx
    · unfold basename
      rw [List.reverse_append, takeWhile_append_all _ _ _ hall]
      have hsplit : ∃ t, d.reverse = '/' :: t := by
        rw [List.getLast?_eq_head?_reverse] at hd
        cases hrev : d.reverse with
        | nil => rw [hrev] at hd; simp at hd
        | cons c t =>
          rw [hrev] at hd
          simp only [List.head?_cons, Option.some.injEq] at hd
          exact ⟨t, by rw [hd]⟩
      rcases hsplit with ⟨t, ht⟩
      rw [ht, List.takeWhile_cons]
      simp
  · rw [if_neg hd]
    unfold basename
    have heq : (d ++ '/' :: x).reverse = x.reverse ++ '/' :: d.reverse := by
      rw [List.reverse_append]
      simp
    rw [heq, takeWhile_append_all _ _ _ hall, List.takeWhile_cons]
    simp

/-- The output-path rule of `markdown_to_pdf` (lines 17–19): the explicit
`output_file` when given, else the input path with its extension replaced
by `.pdf`. -/
def markdown_to_pdf_output (input_file : List Char) : Option (List Char) → List Char
  | none => (splitext input_file).1 ++ ".pdf".toList
  | some o => o

/-- The `--single` branch of the CLI (lines 177–186): with `--output-dir`
the output is `join(output_dir, splitext(basename(input))[0] + '.pdf')`;
without it, no output file is passed and `markdown_to_pdf` applies its
default. -/
def singleOutputFile (input : List Char) : Option (List Char) → Option (List Char)
  | none => none
  | some d => some (pathJoin d ((splitext (basename input)).1 ++ ".pdf".toList))

/-- The path the PDF is written to in `--single` mode. -/
def effectiveOutput (input : List Char) (outDir : Option (List Char)) : List Char :=
  markdown_to_pdf_output input (singleOutputFile input outDir)

/-- C9: with no output directory the PDF path is the input path with its
extension replaced by `.pdf` (so `--single doc.md` writes `doc.pdf` beside
the source); with an explicit output directory the PDF goes into that
directory and keeps the input's base name. -/
theorem markdown_to_pdf_output_paths (input d : List Char) :
    effectiveOutput input none = (splitext input).1 ++ ".pdf".toList ∧
      effectiveOutput input (some d) =
        pathJoin d ((splitext (basename input)).1 ++ ".pdf".toList) ∧
      basename (effectiveOutput input (some d)) =
        (splitext (basename input)).1 ++ ".pdf".toList := by
  refine ⟨rfl, rfl, ?_⟩
  apply basename_pathJoin
  · intro hmem
    rcases List.mem_append.mp hmem with h | h
    · exact basename_no_slash input (splitext_fst_mem _ _ h)
    · exact absurd h (by decide)
  · intro h
    rw [List.append_eq_nil] at h
    exact absurd h.2 (by decide)
